import Mathlib

/-!
Verification of the JSON ↔ Automerge binary converter
(`src/jsonAutomergeConverter.ts`).

The development shallowly embeds the converter: JavaScript runtime values
are modelled by the inductive type `JSValue` (which, beyond plain JSON,
carries the runtime shapes the validator has to reject: `undefined`,
functions, symbols, and objects tagged with their constructor such as
`Date` and `RegExp`).  The validator `isValidJsonObject`, the encoder
`jsonToAutomerge`, the decoder `automergeToJson`, and the helpers
`jsonToRepoCompatible` / `validateAutomergeBinary` are translated from the
source.  The external Automerge engine (`A.from` / `A.save` / `A.load`) is
not part of the repository; it is modelled from the specification's §6
engine contract (serialize/deserialize are exact inverses on
engine-produced documents) as an injective byte serialization with a
magic header, a length prefix and an exact parser.
-/

namespace JsonAutomerge

/-- A JavaScript number: a finite value or one of the non-finite doubles.
Finite values are modelled by integers; the claims under study do not
depend on fractional or rounding behaviour. -/
inductive JSNumber where
  | finite (i : Int)
  | nan
  | posInf
  | negInf
deriving DecidableEq, Repr

/-- The runtime `constructor` tag of a JavaScript object, as inspected by
the validator's check `value.constructor !== Object && value.constructor
!== undefined`. -/
inductive JSConstructor where
  | objectCtor
  | noCtor
  | dateCtor
  | regexpCtor
  | otherCtor (tag : String)
deriving DecidableEq, Repr

/-- A JavaScript runtime value, as far as the converter inspects it:
the plain-JSON shapes plus `undefined`, functions, symbols, and objects
carrying their constructor tag. Object fields are an ordered list of
string-keyed bindings (JavaScript objects have unique keys; that
invariant is stated separately as `uniqKeys`). -/
inductive JSValue where
  | undef
  | null
  | boolean (b : Bool)
  | number (n : JSNumber)
  | string (s : String)
  | array (items : List JSValue)
  | object (ctor : JSConstructor) (fields : List (String × JSValue))
  | function
  | symbol

mutual

/-- `isValidJsonObject` from `src/jsonAutomergeConverter.ts` (lines
103–126), case by case: `null`/`undefined` are rejected first; boolean,
number and string leaves are accepted; arrays recurse over their items;
other objects are accepted only when their constructor is `Object` or
`undefined` and every field value recurses; everything else (functions,
symbols) falls through to `false`. -/
def isValidJsonObject : JSValue → Bool
  | .undef => false
  | .null => false
  | .boolean _ => true
  | .number _ => true
  | .string _ => true
  | .array items => allItemsValid items
  | .object ctor fields =>
      if ctor ≠ JSConstructor.objectCtor ∧ ctor ≠ JSConstructor.noCtor then
        false
      else
        allFieldsValid fields
  | .function => false
  | .symbol => false

/-- `value.every(item => isValidJsonObject(item))` over an array. -/
def allItemsValid : List JSValue → Bool
  | [] => true
  | x :: xs => isValidJsonObject x && allItemsValid xs

/-- `Object.values(value).every(val => isValidJsonObject(val))`. -/
def allFieldsValid : List (String × JSValue) → Bool
  | [] => true
  | (_, v) :: rest => isValidJsonObject v && allFieldsValid rest

end

/-- `ConversionOptions` from the source: `actor?: string` and
`validateJson?: boolean`.  Both fields are optional in TypeScript, so
both are `Option`s here; the truthiness test `options.validateJson &&
...` passes exactly when the field is present and `true`. -/
structure ConversionOptions where
  actor : Option String := none
  validateJson : Option Bool := none

/-- The error kinds the conversion boundary can surface (§7 of the
specification): a validation failure carrying its message, or a decode
failure from the engine. -/
inductive ConvError where
  | validationError (msg : String)
  | decodeError (msg : String)
deriving DecidableEq, Repr

/-! ### The engine model

Modelled from the spec: the CRDT engine (`A.from` / `A.save` / `A.load`
of the external `@automerge/automerge` package) is not part of this
repository.  The spec's §6 contract — `create(jsonValue, actor?)`,
`serialize`, `deserialize` exact inverses on engine-produced documents,
`materialize` returning the JSON view — is realised by a concrete
injective serialization: a magic header, a length prefix, a tagged
token stream for the document's value, and an exact parser that rejects
the empty input, inputs without the header, and truncated encodings.
Byte values are modelled by naturals. -/

/-- An engine document: the materialized value plus the actor it was
created with (spec §6: `create(jsonValue, actor?) -> EngineDoc`). -/
structure EngineDoc where
  value : JSValue
  actor : Option String

/-- Modelled from the spec: `A.from(json, actor)` materializes a fresh
document seeded with the value, attributed to the actor. -/
def engineFrom (json : JSValue) (actor : Option String) : EngineDoc :=
  ⟨json, actor⟩

/-- The characters of a string as one token each. -/
def encChars (cs : List Char) : List Nat :=
  cs.map Char.toNat

/-- A length-prefixed string. -/
def encString (s : String) : List Nat :=
  s.toList.length :: encChars s.toList

/-- The constructor tag of an object. -/
def encCtor : JSConstructor → List Nat
  | .objectCtor => [0]
  | .noCtor => [1]
  | .dateCtor => [2]
  | .regexpCtor => [3]
  | .otherCtor tag => 4 :: encString tag

mutual

/-- The tagged token stream of a value. -/
def encVal : JSValue → List Nat
  | .undef => [0]
  | .null => [1]
  | .boolean b => [2, if b then 1 else 0]
  | .number (.finite i) => [3, if i < 0 then 1 else 0, i.natAbs]
  | .number .nan => [4]
  | .number .posInf => [5]
  | .number .negInf => [6]
  | .string s => 7 :: encString s
  | .array items => 8 :: items.length :: encItems items
  | .object ctor fields => 9 :: (encCtor ctor ++ fields.length :: encFields fields)
  | .function => [10]
  | .symbol => [11]

/-- The concatenated streams of an array's items. -/
def encItems : List JSValue → List Nat
  | [] => []
  | x :: xs => encVal x ++ encItems xs

/-- The concatenated key/value streams of an object's fields. -/
def encFields : List (String × JSValue) → List Nat
  | [] => []
  | (k, v) :: rest => encString k ++ encVal v ++ encFields rest

end

mutual

/-- Nesting depth of a value; the parser needs `depth v + 1` units of
fuel to reconstruct `v`. -/
def depth : JSValue → Nat
  | .array items => depthItems items + 1
  | .object _ fields => depthFields fields + 1
  | _ => 0

/-- Largest depth among an array's items. -/
def depthItems : List JSValue → Nat
  | [] => 0
  | x :: xs => max (depth x) (depthItems xs)

/-- Largest depth among an object's field values. -/
def depthFields : List (String × JSValue) → Nat
  | [] => 0
  | (_, v) :: rest => max (depth v) (depthFields rest)

end

/-- Parse `n` character tokens. -/
def decChars : Nat → List Nat → Option (List Char × List Nat)
  | 0, ts => some ([], ts)
  | _ + 1, [] => none
  | n + 1, t :: ts =>
      (decChars n ts).map (fun p => (Char.ofNat t :: p.1, p.2))

/-- Parse a length-prefixed string. -/
def decString : List Nat → Option (String × List Nat)
  | [] => none
  | n :: ts => (decChars n ts).map (fun p => (String.mk p.1, p.2))

/-- Parse a constructor tag. -/
def decCtor : List Nat → Option (JSConstructor × List Nat)
  | 0 :: ts => some (.objectCtor, ts)
  | 1 :: ts => some (.noCtor, ts)
  | 2 :: ts => some (.dateCtor, ts)
  | 3 :: ts => some (.regexpCtor, ts)
  | 4 :: ts => (decString ts).map (fun p => (.otherCtor p.1, p.2))
  | _ => none

/-- Parse `n` repetitions with the given element parser. -/
def decListWith {α : Type} (step : List Nat → Option (α × List Nat)) :
    Nat → List Nat → Option (List α × List Nat)
  | 0, ts => some ([], ts)
  | n + 1, ts =>
      match step ts with
      | some (x, r1) =>
          match decListWith step n r1 with
          | some (xs, r2) => some (x :: xs, r2)
          | none => none
      | none => none

/-- Parse a string key followed by a value parsed by `pv`. -/
def decPairWith {α : Type} (pv : List Nat → Option (α × List Nat))
    (u : List Nat) : Option ((String × α) × List Nat) :=
  match decString u with
  | some (k, u1) => (pv u1).map (fun p => ((k, p.1), p.2))
  | none => none

/-- One layer of the value parser: dispatch on the tag, delegating
nested values to `rec`. -/
def decValF (rec : List Nat → Option (JSValue × List Nat)) :
    List Nat → Option (JSValue × List Nat)
  | 0 :: ts => some (.undef, ts)
  | 1 :: ts => some (.null, ts)
  | 2 :: b :: ts => some (.boolean (b == 1), ts)
  | 3 :: s :: m :: ts =>
      some (.number (.finite (if s == 1 then -(m : Int) else (m : Int))), ts)
  | 4 :: ts => some (.number .nan, ts)
  | 5 :: ts => some (.number .posInf, ts)
  | 6 :: ts => some (.number .negInf, ts)
  | 7 :: ts => (decString ts).map (fun p => (.string p.1, p.2))
  | 8 :: n :: ts => (decListWith rec n ts).map (fun p => (.array p.1, p.2))
  | 9 :: ts =>
      match decCtor ts with
      | some (c, r1) =>
          match r1 with
          | [] => none
          | n :: r2 =>
              match decListWith (decPairWith rec) n r2 with
              | some (fs, r3) => some (.object c fs, r3)
              | none => none
      | none => none
  | 10 :: ts => some (.function, ts)
  | 11 :: ts => some (.symbol, ts)
  | _ => none

/-- Parse one value, spending one unit of fuel per nesting level. -/
def decVal : Nat → List Nat → Option (JSValue × List Nat)
  | 0, _ => none
  | fuel + 1, tokens => decValF (decVal fuel) tokens

/-- Encode the optional actor the document was created with. -/
def encActor : Option String → List Nat
  | none => [0]
  | some s => 1 :: encString s

/-- Parse the optional actor. -/
def decActor : List Nat → Option (Option String × List Nat)
  | 0 :: ts => some (none, ts)
  | 1 :: ts => (decString ts).map (fun p => (some p.1, p.2))
  | _ => none

/-- The magic header opening every serialized document. -/
def MAGIC : List Nat := [133, 111, 74, 131]

/-- Modelled from the spec: `A.save(doc)` serializes an engine document
to bytes — header, length of the body, actor, parser fuel, value
stream. -/
def engineSave (doc : EngineDoc) : List Nat :=
  let body := encActor doc.actor ++ depth doc.value :: encVal doc.value
  MAGIC ++ body.length :: body

/-- Modelled from the spec: `A.load(bytes, actor)` parses a document
back, failing (`none`, i.e. a thrown engine error) on the empty input,
on inputs not carrying the header, on truncated bodies, and on
unparsable token streams.  The body must be consumed exactly. -/
def engineLoad (bytes : List Nat) (actor : Option String) : Option EngineDoc :=
  match bytes with
  | 133 :: 111 :: 74 :: 131 :: len :: rest =>
      if rest.length = len then
        match decActor rest with
        | some (a, r1) =>
            match r1 with
            | [] => none
            | f :: r2 =>
                match decVal (f + 1) r2 with
                | some (v, []) => some ⟨v, actor.orElse (fun _ => a)⟩
                | _ => none
        | none => none
      else none
  | _ => none

/-! ### The converter API, from `src/jsonAutomergeConverter.ts` -/

/-- `jsonToAutomerge` (lines 21–28): when `options.validateJson` is
truthy and the validator rejects the value, throw the validation error;
otherwise seed an engine document from the value and the actor and
serialize it. -/
def jsonToAutomerge (json : JSValue) (options : ConversionOptions) : Except ConvError (List Nat) :=
  if options.validateJson.getD false && !isValidJsonObject json then
    .error (.validationError "Invalid JSON object: must be a plain object or array")
  else
    .ok (engineSave (engineFrom json options.actor))

/-- `automergeToJson` (lines 36–39): load the document from the bytes
(with the optional actor) and return its materialized JSON view;
an engine load failure surfaces as a decode error. -/
def automergeToJson (binary : List Nat) (options : ConversionOptions) : Except ConvError JSValue :=
  match engineLoad binary options.actor with
  | some doc => .ok doc.value
  | none => .error (.decodeError "unable to load document")

/-- `jsonToRepoCompatible` (lines 76–79): defined as a direct call to
`jsonToAutomerge`. -/
def jsonToRepoCompatible (json : JSValue) (options : ConversionOptions) : Except ConvError (List Nat) :=
  jsonToAutomerge json options

/-- Modelled from the spec: `validateAutomergeBinary` (the BinaryProbe's
`isValidBinary`) is imported by the repository's tests from
`src/jsonAutomergeConverter.ts` but its definition is missing from the
sources provided; per §4.3 it attempts `decode(bytes, {})` and returns
true iff that completes without failure. -/
def validateAutomergeBinary (binary : List Nat) : Bool :=
  match automergeToJson binary {} with
  | .ok _ => true
  | .error _ => false

/-! ### Structural equality

The round-trip law speaks of structural equality: deep, order-sensitive
for sequences, order-insensitive for mapping keys.  `structEq` realises
that comparison; `uniqKeys` states the JavaScript-object invariant (§3:
mapping keys are unique) under which it is reflexive. -/

/-- JavaScript property lookup on an object's field list (first binding
wins). -/
def lookupField (k : String) : List (String × JSValue) → Option JSValue
  | [] => none
  | (k', v) :: rest => if k' = k then some v else lookupField k rest

/-- Every key of `gs` is present in `fs`. -/
def keysIncl (gs fs : List (String × JSValue)) : Bool :=
  gs.all (fun kv => (lookupField kv.1 fs).isSome)

mutual

/-- Deep structural equality: order-sensitive on arrays,
order-insensitive on object keys. -/
def structEq : JSValue → JSValue → Bool
  | .undef, .undef => true
  | .null, .null => true
  | .boolean a, .boolean b => a == b
  | .number a, .number b => a == b
  | .string a, .string b => a == b
  | .array xs, .array ys => structEqItems xs ys
  | .object c fs, .object d gs => c == d && (fieldsIncl fs gs && keysIncl gs fs)
  | .function, .function => true
  | .symbol, .symbol => true
  | _, _ => false

/-- Pointwise structural equality of two sequences. -/
def structEqItems : List JSValue → List JSValue → Bool
  | [], [] => true
  | x :: xs, y :: ys => structEq x y && structEqItems xs ys
  | _, _ => false

/-- Every binding of the first list is matched, up to `structEq`, by a
binding of the second under the same key. -/
def fieldsIncl : List (String × JSValue) → List (String × JSValue) → Bool
  | [], _ => true
  | (k, v) :: rest, gs =>
      (match lookupField k gs with
       | some w => structEq v w
       | none => false) && fieldsIncl rest gs

end

/-- No key occurs twice in a field list. -/
def keysNodup : List (String × JSValue) → Bool
  | [] => true
  | (k, _) :: rest => (lookupField k rest).isNone && keysNodup rest

mutual

/-- The §3 invariant: at every nesting level, mapping keys are
unique. -/
def uniqKeys : JSValue → Bool
  | .array xs => uniqKeysItems xs
  | .object _ fs => keysNodup fs && uniqKeysFields fs
  | _ => true

/-- `uniqKeys` over a sequence's items. -/
def uniqKeysItems : List JSValue → Bool
  | [] => true
  | x :: xs => uniqKeys x && uniqKeysItems xs

/-- `uniqKeys` over an object's field values. -/
def uniqKeysFields : List (String × JSValue) → Bool
  | [] => true
  | (_, v) :: rest => uniqKeys v && uniqKeysFields rest

end

/-! ### Shapes the validator must reject, and nesting it must accept -/

mutual

/-- Whether a value contains, at any nesting depth, one of the shapes
the claims single out: a `Date`-tagged object, a `RegExp`-tagged
object, a callable, or a symbol leaf. -/
def containsBadLeaf : JSValue → Bool
  | .array xs => anyBadItems xs
  | .object c fs =>
      (c == JSConstructor.dateCtor || c == JSConstructor.regexpCtor) || anyBadFields fs
  | .function => true
  | .symbol => true
  | _ => false

/-- `containsBadLeaf` somewhere in a sequence. -/
def anyBadItems : List JSValue → Bool
  | [] => false
  | x :: xs => containsBadLeaf x || anyBadItems xs

/-- `containsBadLeaf` somewhere among an object's field values. -/
def anyBadFields : List (String × JSValue) → Bool
  | [] => false
  | (_, v) :: rest => containsBadLeaf v || anyBadFields rest

end

/-- A plain mapping nested `n` levels deep. -/
def deepNest : Nat → JSValue
  | 0 => .string "leaf"
  | n + 1 => .object .objectCtor [("child", deepNest n)]

/-- Per-item validity with an explicit recursion bound for the items,
delegating single values to `rec`: `none` models the recursion failing
to terminate within the bound. -/
def allItemsValidFuel (rec : JSValue → Option Bool) : List JSValue → Option Bool
  | [] => some true
  | x :: xs =>
      match rec x with
      | some b => if b then allItemsValidFuel rec xs else some false
      | none => none

/-- As `allItemsValidFuel`, over an object's field values. -/
def allFieldsValidFuel (rec : JSValue → Option Bool) :
    List (String × JSValue) → Option Bool
  | [] => some true
  | (_, v) :: rest =>
      match rec v with
      | some b => if b then allFieldsValidFuel rec rest else some false
      | none => none

/-- The validator's recursion made explicit: one unit of fuel is spent
per nesting level, and `none` is returned when the fuel runs out.  On
acyclic input, fuel exceeding the nesting depth always suffices — the
source's unbounded recursion terminates. -/
def isValidJsonObjectFuel : Nat → JSValue → Option Bool
  | 0, _ => none
  | fuel + 1, v =>
      match v with
      | .undef => some false
      | .null => some false
      | .boolean _ => some true
      | .number _ => some true
      | .string _ => some true
      | .array items => allItemsValidFuel (isValidJsonObjectFuel fuel) items
      | .object ctor fields =>
          if ctor ≠ JSConstructor.objectCtor ∧ ctor ≠ JSConstructor.noCtor then
            some false
          else
            allFieldsValidFuel (isValidJsonObjectFuel fuel) fields
      | .function => some false
      | .symbol => some false

/-! ### Roundtrip of the engine serialization -/

lemma mem_depthItems {x : JSValue} : ∀ {xs : List JSValue}, x ∈ xs → depth x ≤ depthItems xs := by
  intro xs hx
  induction xs with
  | nil => cases hx
  | cons y ys ih =>
      rcases List.mem_cons.mp hx with rfl | hmem
      · simp [depthItems]
      · exact le_trans (ih hmem) (by simp [depthItems])

lemma mem_depthFields {k : String} {v : JSValue} :
    ∀ {fs : List (String × JSValue)}, (k, v) ∈ fs → depth v ≤ depthFields fs := by
  intro fs hv
  induction fs with
  | nil => cases hv
  | cons p ps ih =>
      rcases List.mem_cons.mp hv with rfl | hmem
      · simp [depthFields]
      · obtain ⟨k', v'⟩ := p
        exact le_trans (ih hmem) (by simp [depthFields])

lemma decChars_encChars : ∀ (cs : List Char) (rest : List Nat),
    decChars cs.length (encChars cs ++ rest) = some (cs, rest) := by
  intro cs
  induction cs with
  | nil => intro rest; simp [encChars, decChars]
  | cons c cs ih =>
      intro rest
      have h := ih rest
      simp only [encChars] at h ⊢
      simp [decChars, h, Char.ofNat_toNat]

lemma decString_encString (s : String) (rest : List Nat) :
    decString (encString s ++ rest) = some (s, rest) := by
  have h := decChars_encChars s.toList rest
  have hmk : String.mk s.toList = s := by cases s; rfl
  simp only [encString, List.cons_append, decString, h, Option.map_some']
  rw [hmk]

lemma decCtor_encCtor (c : JSConstructor) (rest : List Nat) :
    decCtor (encCtor c ++ rest) = some (c, rest) := by
  cases c <;> simp [encCtor, decCtor, decString_encString]

lemma encItems_eq_flatten : ∀ xs : List JSValue, encItems xs = (xs.map encVal).flatten := by
  intro xs
  induction xs with
  | nil => simp [encItems]
  | cons x xs ih => simp [encItems, ih]

lemma encFields_eq_flatten : ∀ fs : List (String × JSValue),
    encFields fs = (fs.map (fun kv => encString kv.1 ++ encVal kv.2)).flatten := by
  intro fs
  induction fs with
  | nil => simp [encFields]
  | cons p ps ih => obtain ⟨k, v⟩ := p; simp [encFields, ih]

lemma decListWith_flatten {α : Type} (step : List Nat → Option (α × List Nat))
    (enc : α → List Nat) :
    ∀ (xs : List α) (rest : List Nat),
      (∀ x ∈ xs, ∀ r, step (enc x ++ r) = some (x, r)) →
      decListWith step xs.length ((xs.map enc).flatten ++ rest) = some (xs, rest) := by
  intro xs
  induction xs with
  | nil => intro rest _; simp [decListWith]
  | cons x xs ih =>
      intro rest h
      have hx := h x (List.mem_cons_self x xs) ((xs.map enc).flatten ++ rest)
      have hxs := ih rest (fun y hy r => h y (List.mem_cons_of_mem x hy) r)
      simp [decListWith, List.append_assoc, hx, hxs]

set_option maxHeartbeats 1000000 in
/-- Parsing inverts serialization: with fuel exceeding the value's
nesting depth, `decVal` recovers the value and leaves the rest of the
stream untouched. -/
lemma decVal_encVal : ∀ (fuel : Nat) (v : JSValue) (rest : List Nat), depth v < fuel →
    decVal fuel (encVal v ++ rest) = some (v, rest) := by
  intro fuel
  induction fuel with
  | zero => intro v rest h; exact absurd h (Nat.not_lt_zero _)
  | succ fuel ih =>
      intro v rest h
      cases v with
      | undef => simp [encVal, decVal, decValF]
      | null => simp [encVal, decVal, decValF]
      | boolean b => cases b <;> simp [encVal, decVal, decValF]
      | number n =>
          cases n with
          | finite i =>
              by_cases hi : i < 0
              · simp [encVal, decVal, decValF, hi, abs_of_neg hi]
              · simp [encVal, decVal, decValF, hi, abs_of_nonneg (le_of_not_lt hi)]
          | nan => simp [encVal, decVal, decValF]
          | posInf => simp [encVal, decVal, decValF]
          | negInf => simp [encVal, decVal, decValF]
      | string s => simp [encVal, decVal, decValF, decString_encString]
      | array items =>
          have hstep : ∀ x ∈ items, ∀ r, decVal fuel (encVal x ++ r) = some (x, r) := by
            intro x hx r
            refine ih x r (lt_of_le_of_lt (mem_depthItems hx) ?_)
            simp only [depth] at h
            omega
          have hlist := decListWith_flatten (decVal fuel) encVal items rest hstep
          simp [encVal, decVal, decValF, encItems_eq_flatten, hlist]
      | object ctor fields =>
          have hstep : ∀ kv ∈ fields, ∀ r,
              decPairWith (decVal fuel) ((encString kv.1 ++ encVal kv.2) ++ r) =
                some (kv, r) := by
            intro kv hkv r
            obtain ⟨k, v⟩ := kv
            have hv : decVal fuel (encVal v ++ r) = some (v, r) := by
              refine ih v r (lt_of_le_of_lt (mem_depthFields hkv) ?_)
              simp only [depth] at h
              omega
            simp [decPairWith, List.append_assoc, decString_encString, hv]
          have hlist := decListWith_flatten (decPairWith (decVal fuel))
            (fun kv => encString kv.1 ++ encVal kv.2) fields rest hstep
          have hctor := decCtor_encCtor ctor
            (fields.length ::
              ((fields.map (fun kv => encString kv.1 ++ encVal kv.2)).flatten ++ rest))
          simp [encVal, decVal, decValF, List.append_assoc, hctor,
            encFields_eq_flatten, hlist]
      | function => simp [encVal, decVal, decValF]
      | symbol => simp [encVal, decVal, decValF]

lemma decActor_encActor (a : Option String) (rest : List Nat) :
    decActor (encActor a ++ rest) = some (a, rest) := by
  cases a <;> simp [encActor, decActor, decString_encString]

/-- The engine contract of §6: deserializing a serialized document
recovers it (the materialized value is unchanged; the actor passed to
load takes precedence when supplied). -/
lemma engineLoad_engineSave (v : JSValue) (a a' : Option String) :
    engineLoad (engineSave ⟨v, a⟩) a' = some ⟨v, a'.orElse (fun _ => a)⟩ := by
  have hval : decVal (depth v + 1) (encVal v ++ []) = some (v, []) :=
    decVal_encVal (depth v + 1) v [] (Nat.lt_succ_self _)
  have hval' : decVal (depth v + 1) (encVal v) = some (v, []) := by
    simpa using hval
  have hact := decActor_encActor a (depth v :: encVal v)
  simp [engineSave, engineLoad, MAGIC, hact, hval']

/-- Induction over `JSValue`, with membership hypotheses for the nested
lists. -/
theorem JSValue.inductionOn {P : JSValue → Prop}
    (h1 : P .undef) (h2 : P .null) (h3 : ∀ b, P (.boolean b))
    (h4 : ∀ n, P (.number n)) (h5 : ∀ s, P (.string s))
    (h6 : ∀ xs, (∀ x ∈ xs, P x) → P (.array xs))
    (h7 : ∀ c fs, (∀ kv ∈ fs, P kv.2) → P (.object c fs))
    (h8 : P .function) (h9 : P .symbol) : ∀ v, P v
  | .undef => h1
  | .null => h2
  | .boolean b => h3 b
  | .number n => h4 n
  | .string s => h5 s
  | .array xs => h6 xs (fun x hx =>
      JSValue.inductionOn h1 h2 h3 h4 h5 h6 h7 h8 h9 x)
  | .object c fs => h7 c fs (fun kv hkv =>
      JSValue.inductionOn h1 h2 h3 h4 h5 h6 h7 h8 h9 kv.2)
  | .function => h8
  | .symbol => h9
termination_by v => sizeOf v
decreasing_by
  · have := List.sizeOf_lt_of_mem hx
    simp only [JSValue.array.sizeOf_spec]
    omega
  · have h := List.sizeOf_lt_of_mem hkv
    obtain ⟨a, b⟩ := kv
    simp only [JSValue.object.sizeOf_spec, Prod.mk.sizeOf_spec] at h ⊢
    omega

lemma lookupField_self {k : String} {v : JSValue} :
    ∀ {fs : List (String × JSValue)}, keysNodup fs = true → (k, v) ∈ fs →
      lookupField k fs = some v := by
  intro fs
  induction fs with
  | nil => intro _ h; cases h
  | cons p rest ih =>
      obtain ⟨k', v'⟩ := p
      intro hnd hmem
      simp only [keysNodup, Bool.and_eq_true] at hnd
      rcases List.mem_cons.mp hmem with heq | hmem'
      · injection heq with hk hv
        subst hk; subst hv
        simp [lookupField]
      · have hrest := ih hnd.2 hmem'
        by_cases hk : k' = k
        · subst hk
          rw [hrest] at hnd
          simp [Option.isNone] at hnd
        · simp [lookupField, hk, hrest]

lemma fieldsIncl_of_lookup :
    ∀ (fs gs : List (String × JSValue)),
      (∀ kv ∈ fs, ∃ w, lookupField kv.1 gs = some w ∧ structEq kv.2 w = true) →
      fieldsIncl fs gs = true := by
  intro fs gs
  induction fs with
  | nil => intro _; simp [fieldsIncl]
  | cons p rest ih =>
      obtain ⟨k, v⟩ := p
      intro h
      obtain ⟨w, hw, hs⟩ := h (k, v) (List.mem_cons_self _ _)
      have hrest := ih (fun kv hkv => h kv (List.mem_cons_of_mem _ hkv))
      simp [fieldsIncl, hw, hs, hrest]

lemma uniqKeysItems_mem {xs : List JSValue} {x : JSValue}
    (h : uniqKeysItems xs = true) (hx : x ∈ xs) : uniqKeys x = true := by
  induction xs with
  | nil => cases hx
  | cons y ys ih =>
      simp only [uniqKeysItems, Bool.and_eq_true] at h
      rcases List.mem_cons.mp hx with rfl | hmem
      · exact h.1
      · exact ih h.2 hmem

lemma uniqKeysFields_mem {fs : List (String × JSValue)} {kv : String × JSValue}
    (h : uniqKeysFields fs = true) (hkv : kv ∈ fs) : uniqKeys kv.2 = true := by
  induction fs with
  | nil => cases hkv
  | cons p ps ih =>
      obtain ⟨k, v⟩ := p
      simp only [uniqKeysFields, Bool.and_eq_true] at h
      rcases List.mem_cons.mp hkv with rfl | hmem
      · exact h.1
      · exact ih h.2 hmem

lemma structEqItems_refl {xs : List JSValue}
    (h : ∀ x ∈ xs, structEq x x = true) : structEqItems xs xs = true := by
  induction xs with
  | nil => simp [structEqItems]
  | cons y ys ih =>
      simp [structEqItems, h y (List.mem_cons_self _ _),
        ih (fun x hx => h x (List.mem_cons_of_mem _ hx))]

/-- Structural equality is reflexive on values whose mapping keys are
unique (the §3 data-model invariant). -/
lemma structEq_refl : ∀ (v : JSValue), uniqKeys v = true → structEq v v = true := by
  intro v
  induction v using JSValue.inductionOn with
  | h1 => intro _; rfl
  | h2 => intro _; rfl
  | h3 b => intro _; simp [structEq]
  | h4 n => intro _; simp [structEq]
  | h5 s => intro _; simp [structEq]
  | h6 xs ih =>
      intro hu
      simp only [uniqKeys] at hu
      have : ∀ x ∈ xs, structEq x x = true :=
        fun x hx => ih x hx (uniqKeysItems_mem hu hx)
      simp [structEq, structEqItems_refl this]
  | h7 c fs ih =>
      intro hu
      simp only [uniqKeys, Bool.and_eq_true] at hu
      have hincl : fieldsIncl fs fs = true := by
        refine fieldsIncl_of_lookup fs fs (fun kv hkv => ?_)
        exact ⟨kv.2, by
          obtain ⟨k, v⟩ := kv
          exact lookupField_self hu.1 hkv,
          ih kv hkv (uniqKeysFields_mem hu.2 hkv)⟩
      have hkeys : keysIncl fs fs = true := by
        simp only [keysIncl, List.all_eq_true]
        intro kv hkv
        obtain ⟨k, v⟩ := kv
        rw [lookupField_self hu.1 hkv]
        rfl
      simp [structEq, hincl, hkeys]
  | h8 => intro _; rfl
  | h9 => intro _; rfl

/-! ### Validator lemmas -/

lemma allItemsValid_false_of_mem {xs : List JSValue} {x : JSValue}
    (hx : x ∈ xs) (hv : isValidJsonObject x = false) : allItemsValid xs = false := by
  induction xs with
  | nil => cases hx
  | cons y ys ih =>
      rcases List.mem_cons.mp hx with rfl | hmem
      · simp [allItemsValid, hv]
      · simp [allItemsValid, ih hmem]

lemma allFieldsValid_false_of_mem {fs : List (String × JSValue)} {kv : String × JSValue}
    (hkv : kv ∈ fs) (hv : isValidJsonObject kv.2 = false) : allFieldsValid fs = false := by
  induction fs with
  | nil => cases hkv
  | cons p ps ih =>
      obtain ⟨k, v⟩ := p
      rcases List.mem_cons.mp hkv with rfl | hmem
      · simp [allFieldsValid, hv]
      · simp [allFieldsValid, ih hmem]

lemma anyBadItems_exists {xs : List JSValue} (h : anyBadItems xs = true) :
    ∃ x ∈ xs, containsBadLeaf x = true := by
  induction xs with
  | nil => simp [anyBadItems] at h
  | cons y ys ih =>
      simp only [anyBadItems, Bool.or_eq_true] at h
      rcases h with hy | hys
      · exact ⟨y, List.mem_cons_self _ _, hy⟩
      · obtain ⟨x, hx, hbad⟩ := ih hys
        exact ⟨x, List.mem_cons_of_mem _ hx, hbad⟩

lemma anyBadFields_exists {fs : List (String × JSValue)} (h : anyBadFields fs = true) :
    ∃ kv ∈ fs, containsBadLeaf kv.2 = true := by
  induction fs with
  | nil => simp [anyBadFields] at h
  | cons p ps ih =>
      obtain ⟨k, v⟩ := p
      simp only [anyBadFields, Bool.or_eq_true] at h
      rcases h with hv | hps
      · exact ⟨(k, v), List.mem_cons_self _ _, hv⟩
      · obtain ⟨kv, hkv, hbad⟩ := ih hps
        exact ⟨kv, List.mem_cons_of_mem _ hkv, hbad⟩

/-- A value containing a Date-tagged object, a RegExp-tagged object, a
callable or a symbol anywhere fails validation. -/
lemma isValid_false_of_bad : ∀ v, containsBadLeaf v = true → isValidJsonObject v = false := by
  intro v
  induction v using JSValue.inductionOn with
  | h1 => intro h; cases h
  | h2 => intro h; cases h
  | h3 b => intro h; simp [containsBadLeaf] at h
  | h4 n => intro h; simp [containsBadLeaf] at h
  | h5 s => intro h; simp [containsBadLeaf] at h
  | h6 xs ih =>
      intro h
      simp only [containsBadLeaf] at h
      obtain ⟨x, hx, hbad⟩ := anyBadItems_exists h
      simp [isValidJsonObject, allItemsValid_false_of_mem hx (ih x hx hbad)]
  | h7 c fs ih =>
      intro h
      cases c with
      | objectCtor =>
          simp only [containsBadLeaf] at h
          simp only [Bool.or_eq_true] at h
          rcases h with h | h
          · simp at h
          · obtain ⟨kv, hkv, hbad⟩ := anyBadFields_exists h
            simp [isValidJsonObject,
              allFieldsValid_false_of_mem hkv (ih kv hkv hbad)]
      | noCtor =>
          simp only [containsBadLeaf] at h
          simp only [Bool.or_eq_true] at h
          rcases h with h | h
          · simp at h
          · obtain ⟨kv, hkv, hbad⟩ := anyBadFields_exists h
            simp [isValidJsonObject,
              allFieldsValid_false_of_mem hkv (ih kv hkv hbad)]
      | dateCtor => simp [isValidJsonObject]
      | regexpCtor => simp [isValidJsonObject]
      | otherCtor tag => simp [isValidJsonObject]
  | h8 => intro _; rfl
  | h9 => intro _; rfl

lemma isValid_deepNest : ∀ n, isValidJsonObject (deepNest n) = true := by
  intro n
  induction n with
  | zero => rfl
  | succ n ih => simp [deepNest, isValidJsonObject, allFieldsValid, ih]

lemma allItemsValidFuel_eq {rec : JSValue → Option Bool} {xs : List JSValue}
    (h : ∀ x ∈ xs, rec x = some (isValidJsonObject x)) :
    allItemsValidFuel rec xs = some (allItemsValid xs) := by
  induction xs with
  | nil => rfl
  | cons y ys ih =>
      have hy := h y (List.mem_cons_self _ _)
      have hys := ih (fun x hx => h x (List.mem_cons_of_mem _ hx))
      by_cases hb : isValidJsonObject y
      · simp [allItemsValidFuel, hy, hb, hys, allItemsValid]
      · simp only [Bool.not_eq_true] at hb
        simp [allItemsValidFuel, hy, hb, allItemsValid]

lemma allFieldsValidFuel_eq {rec : JSValue → Option Bool} {fs : List (String × JSValue)}
    (h : ∀ kv ∈ fs, rec kv.2 = some (isValidJsonObject kv.2)) :
    allFieldsValidFuel rec fs = some (allFieldsValid fs) := by
  induction fs with
  | nil => rfl
  | cons p ps ih =>
      obtain ⟨k, v⟩ := p
      have hv := h (k, v) (List.mem_cons_self _ _)
      have hps := ih (fun kv hkv => h kv (List.mem_cons_of_mem _ hkv))
      by_cases hb : isValidJsonObject v
      · simp [allFieldsValidFuel, hv, hb, hps, allFieldsValid]
      · simp only [Bool.not_eq_true] at hb
        simp [allFieldsValidFuel, hv, hb, allFieldsValid]

/-- With fuel exceeding the value's nesting depth, the bounded
validator terminates with exactly the validator's verdict. -/
lemma isValidFuel_eq : ∀ (fuel : Nat) (v : JSValue), depth v < fuel →
    isValidJsonObjectFuel fuel v = some (isValidJsonObject v) := by
  intro fuel
  induction fuel with
  | zero => intro v h; exact absurd h (Nat.not_lt_zero _)
  | succ fuel ih =>
      intro v h
      cases v with
      | undef => rfl
      | null => rfl
      | boolean b => rfl
      | number n => rfl
      | string s => rfl
      | array items =>
          have hstep : ∀ x ∈ items, isValidJsonObjectFuel fuel x =
              some (isValidJsonObject x) := by
            intro x hx
            refine ih x (lt_of_le_of_lt (mem_depthItems hx) ?_)
            simp only [depth] at h
            omega
          simp [isValidJsonObjectFuel, isValidJsonObject,
            allItemsValidFuel_eq hstep]
      | object ctor fields =>
          have hstep : ∀ kv ∈ fields, isValidJsonObjectFuel fuel kv.2 =
              some (isValidJsonObject kv.2) := by
            intro kv hkv
            obtain ⟨k, v⟩ := kv
            refine ih v (lt_of_le_of_lt (mem_depthFields hkv) ?_)
            simp only [depth] at h
            omega
          by_cases hc : ctor ≠ JSConstructor.objectCtor ∧ ctor ≠ JSConstructor.noCtor
          · simp [isValidJsonObjectFuel, isValidJsonObject, hc]
          · simp [isValidJsonObjectFuel, isValidJsonObject, hc,
              allFieldsValidFuel_eq hstep]
      | function => rfl
      | symbol => rfl

/-! ### Rejection of non-document bytes -/

/-- The load path rejects every byte sequence that does not open with
the magic header. -/
lemma engineLoad_not_magic {bytes : List Nat} {a : Option String}
    (h : ∀ rest, bytes ≠ MAGIC ++ rest) : engineLoad bytes a = none := by
  unfold engineLoad
  split
  · rename_i len rest
    exact absurd rfl (h (len :: rest))
  · rfl

/-- The load path rejects every strict prefix of a serialized
document: the length prefix no longer matches the truncated body. -/
lemma engineLoad_truncated (doc : EngineDoc) (p q : List Nat)
    (hpq : p ++ q = engineSave doc) (hq : q ≠ []) (a : Option String) :
    engineLoad p a = none := by
  have hqlen : 0 < q.length := List.length_pos.mpr hq
  unfold engineLoad
  split
  · rename_i len rest
    simp only [engineSave, MAGIC, List.cons_append, List.nil_append,
      List.cons.injEq, true_and] at hpq
    obtain ⟨hlen, hbody⟩ := hpq
    have hrest := congrArg List.length hbody
    simp only [List.length_append] at hrest hlen
    have hne : ¬ (rest.length = len) := by omega
    rw [if_neg hne]
  · rfl

/-! ### The claims -/

/-- C1: round-trip law — for every value `v` accepted by
`jsonToAutomerge` with options `o` (producing bytes `b`), decoding `b`
with the same options yields a value structurally equal to `v` (deep,
order-sensitive for sequences, order-insensitive for mapping keys).
`uniqKeys v` is the §3 data-model invariant that JavaScript mapping
keys are unique. -/
theorem C1_round_trip (v : JSValue) (o : ConversionOptions) (b : List Nat)
    (hu : uniqKeys v = true) (hb : jsonToAutomerge v o = .ok b) :
    ∃ w, automergeToJson b o = .ok w ∧ structEq w v = true := by
  have hbeq : engineSave (engineFrom v o.actor) = b := by
    unfold jsonToAutomerge at hb
    split at hb
    · cases hb
    · injection hb with h
  refine ⟨v, ?_, structEq_refl v hu⟩
  rw [← hbeq]
  unfold automergeToJson engineFrom
  rw [engineLoad_engineSave]

/-- C1 witness: a nested mapping with an actor in the options encodes
and decodes back to a structurally equal value. -/
theorem C1_round_trip_witness :
    ∃ w,
      automergeToJson
        ((jsonToAutomerge
            (.object .objectCtor
              [("a", .array [.number (.finite 1), .string "x"]), ("b", .null)])
            ⟨some "beef", none⟩).toOption.getD [])
        ⟨some "beef", none⟩ = .ok w ∧
      structEq w
        (.object .objectCtor
          [("a", .array [.number (.finite 1), .string "x"]), ("b", .null)]) = true :=
  C1_round_trip
    (.object .objectCtor
      [("a", .array [.number (.finite 1), .string "x"]), ("b", .null)])
    ⟨some "beef", none⟩ _ (by rfl) (by rfl)

/-- C2: the claim says the validator treats `null` as a valid leaf
(`isValidJson(null) = true`); the code instead rejects `null` in its
very first test (`value === null || value === undefined`), so
validated encoding of `null` throws — contradicting the repository's
own test "rejects undefined inputs but accepts null".  This theorem
evaluates the code at the failing input. -/
theorem C2_null_rejected_by_code :
    isValidJsonObject .null = false ∧
    jsonToAutomerge .null ⟨none, some true⟩ =
      .error (.validationError "Invalid JSON object: must be a plain object or array") ∧
    isValidJsonObject .undef = false :=
  ⟨rfl, rfl, rfl⟩

/-- C3: validation gating — a value failing the validator makes
`jsonToAutomerge` fail with the named `ValidationError` when
`validateJson` is `true`, while the same call with `validateJson`
absent or `false` performs no validation and succeeds with a non-empty
byte sequence. -/
theorem C3_validation_gating (v : JSValue) (a : Option String)
    (hv : isValidJsonObject v = false) :
    jsonToAutomerge v ⟨a, some true⟩ =
      .error (.validationError "Invalid JSON object: must be a plain object or array") ∧
    (∃ b, jsonToAutomerge v ⟨a, some false⟩ = .ok b ∧ 0 < b.length) ∧
    (∃ b, jsonToAutomerge v ⟨a, none⟩ = .ok b ∧ 0 < b.length) := by
  refine ⟨?_, ?_, ?_⟩
  · simp [jsonToAutomerge, hv]
  · exact ⟨engineSave (engineFrom v a), by simp [jsonToAutomerge],
      by simp [engineSave, MAGIC]⟩
  · exact ⟨engineSave (engineFrom v a), by simp [jsonToAutomerge],
      by simp [engineSave, MAGIC]⟩

/-- C3 witness: a mapping holding a Date-tagged object is rejected
with validation on and encoded to non-empty bytes with validation
off. -/
theorem C3_validation_gating_witness :
    jsonToAutomerge (.object .objectCtor [("date", .object .dateCtor [])])
      ⟨none, some true⟩ =
      .error (.validationError "Invalid JSON object: must be a plain object or array") ∧
    (∃ b, jsonToAutomerge (.object .objectCtor [("date", .object .dateCtor [])])
      ⟨none, some false⟩ = .ok b ∧ 0 < b.length) ∧
    (∃ b, jsonToAutomerge (.object .objectCtor [("date", .object .dateCtor [])])
      ⟨none, none⟩ = .ok b ∧ 0 < b.length) :=
  C3_validation_gating (.object .objectCtor [("date", .object .dateCtor [])]) none
    (by rfl)

/-- C4: validator correctness — values containing a Date-tagged
object, a RegExp-tagged object, a callable, or a symbol leaf at any
depth are rejected; arbitrarily deep plain nesting, the empty mapping,
and an empty sequence wrapped in a mapping are accepted; and on a
mapping the result is exactly "plain constructor and all field values
recursively valid". -/
theorem C4_validator_correctness :
    (∀ v, containsBadLeaf v = true → isValidJsonObject v = false) ∧
    (∀ n, isValidJsonObject (deepNest n) = true) ∧
    isValidJsonObject (.object .objectCtor []) = true ∧
    isValidJsonObject (.object .objectCtor [("items", .array [])]) = true ∧
    (∀ c fs, isValidJsonObject (.object c fs) =
      ((c == JSConstructor.objectCtor || c == JSConstructor.noCtor) &&
        allFieldsValid fs)) := by
  refine ⟨isValid_false_of_bad, isValid_deepNest, rfl, rfl, ?_⟩
  intro c fs
  cases c <;> simp [isValidJsonObject]

/-- C4 witness: a sequence holding a Date-tagged object is rejected. -/
theorem C4_validator_correctness_witness :
    isValidJsonObject (.array [.string "a", .object .dateCtor []]) = false :=
  C4_validator_correctness.1 (.array [.string "a", .object .dateCtor []]) (by rfl)

/-- C5: binary rejection — decoding fails with an error for the empty
byte sequence, for the five arbitrary bytes `[1,2,3,4,5]`, for any
sequence not opening with the document header, and for any strict
prefix (truncation) of a sequence produced by `jsonToAutomerge`. -/
theorem C5_binary_rejection :
    (∀ o, ∃ e, automergeToJson [] o = .error e) ∧
    (∀ o, ∃ e, automergeToJson [1, 2, 3, 4, 5] o = .error e) ∧
    (∀ bytes o, (∀ rest, bytes ≠ MAGIC ++ rest) →
      ∃ e, automergeToJson bytes o = .error e) ∧
    (∀ v o b p q, jsonToAutomerge v o = .ok b → b = p ++ q → q ≠ [] →
      ∀ o', ∃ e, automergeToJson p o' = .error e) := by
  refine ⟨fun o => ⟨_, rfl⟩, fun o => ⟨_, rfl⟩, ?_, ?_⟩
  · intro bytes o h
    refine ⟨.decodeError "unable to load document", ?_⟩
    unfold automergeToJson
    rw [engineLoad_not_magic h]
  · intro v o b p q hb hsplit hq o'
    have hbeq : engineSave (engineFrom v o.actor) = b := by
      unfold jsonToAutomerge at hb
      split at hb
      · cases hb
      · injection hb with h
    refine ⟨.decodeError "unable to load document", ?_⟩
    unfold automergeToJson
    rw [engineLoad_truncated (engineFrom v o.actor) p q (by rw [← hsplit, hbeq]) hq]

/-- C5 witness: instantiating the header conjunct at the five bytes
`[1,2,3,4,5]` and the truncation conjunct at a concrete document cut
one byte short. -/
theorem C5_binary_rejection_witness :
    (∃ e, automergeToJson [1, 2, 3, 4, 5] {} = .error e) ∧
    (∃ e, automergeToJson [133, 111, 74, 131, 5, 0, 1, 9, 0] {} = .error e) :=
  ⟨C5_binary_rejection.2.1 {},
    C5_binary_rejection.2.2.2 (.object .objectCtor []) {}
      [133, 111, 74, 131, 5, 0, 1, 9, 0, 0]
      [133, 111, 74, 131, 5, 0, 1, 9, 0] [0]
      (by rfl) (by rfl) (by simp) {}⟩

/-- C6: the binary probe never raises (it is a total Boolean
function) and returns `true` exactly when decoding with empty options
completes without failure; in particular it returns `false` on the
empty input. -/
theorem C6_probe_iff_decode (bytes : List Nat) :
    (validateAutomergeBinary bytes = true ↔ ∃ v, automergeToJson bytes {} = .ok v) ∧
    validateAutomergeBinary [] = false := by
  refine ⟨?_, rfl⟩
  unfold validateAutomergeBinary
  cases h : automergeToJson bytes {} with
  | ok v => simp
  | error e => simp

/-- C7: on acyclic input (any `JSValue`; the inductive type is acyclic
by construction), the validator's recursion terminates within fuel
bounded by the nesting depth and returns exactly the Boolean verdict
of the unbounded validator — it never fails to produce a Boolean. -/
theorem C7_validator_total (v : JSValue) (fuel : Nat) (h : depth v < fuel) :
    isValidJsonObjectFuel fuel v = some (isValidJsonObject v) :=
  isValidFuel_eq fuel v h

/-- C7 witness: three units of fuel settle a two-level value. -/
theorem C7_validator_total_witness :
    isValidJsonObjectFuel 3 (.object .objectCtor [("xs", .array [.null])]) =
      some (isValidJsonObject (.object .objectCtor [("xs", .array [.null])])) :=
  C7_validator_total (.object .objectCtor [("xs", .array [.null])]) 3 (by decide)

/-- C8: determinism — encoding, decoding and probing are pure
functions of their inputs: equal values, options and bytes give equal
results. -/
theorem C8_deterministic (v₁ v₂ : JSValue) (o₁ o₂ : ConversionOptions)
    (b₁ b₂ : List Nat) (hv : v₁ = v₂) (ho : o₁ = o₂) (hb : b₁ = b₂) :
    jsonToAutomerge v₁ o₁ = jsonToAutomerge v₂ o₂ ∧
    automergeToJson b₁ o₁ = automergeToJson b₂ o₂ ∧
    validateAutomergeBinary b₁ = validateAutomergeBinary b₂ := by
  subst hv; subst ho; subst hb
  exact ⟨rfl, rfl, rfl⟩

/-- C8 witness: two invocations on the same concrete inputs agree. -/
theorem C8_deterministic_witness :
    jsonToAutomerge .null {} = jsonToAutomerge .null {} ∧
    automergeToJson [1, 2, 3, 4, 5] {} = automergeToJson [1, 2, 3, 4, 5] {} ∧
    validateAutomergeBinary [1, 2, 3, 4, 5] = validateAutomergeBinary [1, 2, 3, 4, 5] :=
  C8_deterministic .null .null {} {} [1, 2, 3, 4, 5] [1, 2, 3, 4, 5] rfl rfl rfl

/-- C9: `jsonToRepoCompatible` returns exactly what `jsonToAutomerge`
returns, for every input and every options value — it is defined as a
direct call. -/
theorem C9_repo_compatible_eq (json : JSValue) (options : ConversionOptions) :
    jsonToRepoCompatible json options = jsonToAutomerge json options := rfl

/-- C10: every number is a valid leaf for the validator, including the
non-finite doubles NaN, +∞ and −∞. -/
theorem C10_numbers_valid :
    (∀ n : JSNumber, isValidJsonObject (.number n) = true) ∧
    isValidJsonObject (.number .nan) = true ∧
    isValidJsonObject (.number .posInf) = true ∧
    isValidJsonObject (.number .negInf) = true :=
  ⟨fun _ => rfl, rfl, rfl, rfl⟩

end JsonAutomerge
